import Mathlib

/-!
# Verification model of `openvpn-cred-management`

A shallow embedding of the core of the `openvpn-cred-management` CLI:

* `src/types.rs` — `Username::from_str`, `CustomScriptsMap::run_for`;
* `src/action/shared.rs` — `get_users`, `get_expired_users`;
* `src/action.rs` — `new_user`, `remove_user`, `package`;
* `src/main.rs` — dispatch and `run_post_action_scripts`.

Filesystem state is passed explicitly: directory listings become lists of
file stems, the output directory becomes a partial map from file name to
abstract byte content (`String → Option Nat`), and every fallible external
step (directory copy, script execution, subprocess invocation) is driven by
a Boolean oracle stored in the environment record.  Side effects are
recorded as an explicit event trace.  Logging (`warn!`, `info!`, ...) is
not modelled; it has no effect on any result.
-/

namespace OCM

/-! ## `Username::from_str` (src/types.rs)

The Rust code validates with `Regex::new(r"[\w\d\-_]+")` and
`VALIDATOR.is_match(s)`.  In the `regex` crate, `is_match` reports whether
the pattern matches *somewhere* in the string — the pattern is not
anchored.  Hence parsing succeeds iff the string contains at least one
character of the class `[\w\d\-_]`.  `\w` is modelled at ASCII precision
(letters, digits, underscore), which is exact on every input appearing in
the claims. -/

/-- A character of the regex class `[\w\d\-_]`: ASCII letters and digits,
underscore, or hyphen. -/
def isUsernameChar (c : Char) : Bool :=
  c.isAlpha || c.isDigit || c = '_' || c = '-'

/-- `Username::from_str`: succeeds iff the unanchored regex `[\w\d\-_]+`
matches somewhere in `s`, i.e. iff `s` contains at least one class
character; the stored username is `s` itself, unmodified. -/
def usernameFromStr (s : String) : Option String :=
  if s.data.any isUsernameChar then some s else none

/-- The username grammar as the specification words it: a non-empty token
consisting *solely* of word characters, digits, hyphens and underscores. -/
def specUsernameValid (s : String) : Bool :=
  !s.data.isEmpty && s.data.all isUsernameChar

/-! ## Sorted string sets (model of `BTreeSet<OsString>`)

`get_users` collects file stems into `BTreeSet`s.  A `BTreeSet` is modelled
as a strictly-sorted list of strings; `setInsert` is ordered insertion
without duplication, `setOfList` collects a list into the set.  The
ordering is the lexicographic order on the character sequence, matching
the byte order `BTreeSet<OsString>` uses on these names. -/

/-- Lexicographic strict order on character lists. -/
def charListLt : List Char → List Char → Bool
  | [], [] => false
  | [], _ :: _ => true
  | _ :: _, [] => false
  | a :: as, b :: bs =>
    if a < b then true else if b < a then false else charListLt as bs

/-- Lexicographic strict order on strings. -/
def strLt (a b : String) : Bool := charListLt a.data b.data

theorem charListLt_cons (a b : Char) (as bs : List Char) :
    charListLt (a :: as) (b :: bs)
      = if a < b then true else if b < a then false else charListLt as bs := rfl

theorem charListLt_trans : ∀ {a b c : List Char},
    charListLt a b = true → charListLt b c = true → charListLt a c = true := by
  intro a
  induction a with
  | nil =>
    intro b c hab hbc
    cases b <;> cases c <;> simp_all [charListLt]
  | cons x xs ih =>
    intro b c hab hbc
    cases b with
    | nil => simp [charListLt] at hab
    | cons y ys =>
      cases c with
      | nil => simp [charListLt] at hbc
      | cons z zs =>
        rw [charListLt_cons] at hab hbc ⊢
        rcases lt_trichotomy x y with h1 | h1 | h1
        · rcases lt_trichotomy y z with h2 | h2 | h2
          · simp [lt_trans h1 h2]
          · subst h2; simp [h1]
          · rw [if_neg (asymm h2), if_pos h2] at hbc; exact absurd hbc (by simp)
        · subst h1
          rw [if_neg (lt_irrefl x), if_neg (lt_irrefl x)] at hab
          rcases lt_trichotomy x z with h2 | h2 | h2
          · simp [h2]
          · subst h2
            rw [if_neg (lt_irrefl x), if_neg (lt_irrefl x)] at hbc ⊢
            exact ih hab hbc
          · rw [if_neg (asymm h2), if_pos h2] at hbc; exact absurd hbc (by simp)
        · rw [if_neg (asymm h1), if_pos h1] at hab; exact absurd hab (by simp)

theorem charListLt_irrefl : ∀ (a : List Char), charListLt a a = false := by
  intro a
  induction a with
  | nil => rfl
  | cons x xs ih => rw [charListLt_cons, if_neg (lt_irrefl x), if_neg (lt_irrefl x)]; exact ih

theorem charListLt_total : ∀ (a b : List Char),
    charListLt a b = true ∨ a = b ∨ charListLt b a = true := by
  intro a
  induction a with
  | nil =>
    intro b
    cases b with
    | nil => exact Or.inr (Or.inl rfl)
    | cons y ys => exact Or.inl rfl
  | cons x xs ih =>
    intro b
    cases b with
    | nil => exact Or.inr (Or.inr rfl)
    | cons y ys =>
      rcases lt_trichotomy x y with h | h | h
      · exact Or.inl (by rw [charListLt_cons, if_pos h])
      · subst h
        rcases ih ys with h2 | h2 | h2
        · exact Or.inl (by rw [charListLt_cons, if_neg (lt_irrefl x), if_neg (lt_irrefl x)]; exact h2)
        · exact Or.inr (Or.inl (by rw [h2]))
        · exact Or.inr (Or.inr (by rw [charListLt_cons, if_neg (lt_irrefl x), if_neg (lt_irrefl x)]; exact h2))
      · exact Or.inr (Or.inr (by rw [charListLt_cons, if_pos h]))

theorem strLt_trans {a b c : String} (h1 : strLt a b = true) (h2 : strLt b c = true) :
    strLt a c = true := charListLt_trans h1 h2

theorem strLt_ne {a b : String} (h : strLt a b = true) : a ≠ b := by
  intro heq
  subst heq
  rw [strLt, charListLt_irrefl] at h
  exact absurd h (by simp)

theorem strLt_total (a b : String) (hne : a ≠ b) (hlt : ¬ strLt a b = true) :
    strLt b a = true := by
  rcases charListLt_total a.data b.data with h | h | h
  · exact absurd h hlt
  · exact absurd (by cases a; cases b; simp only at h; rw [h]) hne
  · exact h

/-- Insert a string into a strictly-sorted list, keeping it sorted and
duplicate-free (model of `BTreeSet::insert`). -/
def setInsert (x : String) : List String → List String
  | [] => [x]
  | y :: ys =>
    if strLt x y then x :: y :: ys
    else if x = y then y :: ys
    else y :: setInsert x ys

/-- Collect a list of strings into a sorted duplicate-free set
(model of `Iterator::collect::<BTreeSet<_>>`). -/
def setOfList (l : List String) : List String :=
  l.foldr setInsert []

theorem mem_setInsert (a x : String) (l : List String) :
    a ∈ setInsert x l ↔ a = x ∨ a ∈ l := by
  induction l with
  | nil => simp [setInsert]
  | cons y ys ih =>
    simp only [setInsert]
    split
    · simp
    · split
      · next h1 h2 =>
        subst h2
        simp only [List.mem_cons]
        tauto
      · simp only [List.mem_cons, ih]
        tauto

theorem pairwise_setInsert (x : String) (l : List String)
    (hl : l.Pairwise (fun a b => strLt a b = true)) :
    (setInsert x l).Pairwise (fun a b => strLt a b = true) := by
  induction l with
  | nil => simp [setInsert]
  | cons y ys ih =>
    rcases List.pairwise_cons.mp hl with ⟨hy, hys⟩
    simp only [setInsert]
    split
    · next h1 =>
      refine List.pairwise_cons.mpr ⟨?_, hl⟩
      intro b hb
      rcases List.mem_cons.mp hb with hb | hb
      · exact hb ▸ h1
      · exact strLt_trans h1 (hy b hb)
    · split
      · next h1 h2 => subst h2; exact hl
      · next h1 h2 =>
        have hyx : strLt y x = true := strLt_total x y h2 (by simpa using h1)
        refine List.pairwise_cons.mpr ⟨?_, ih hys⟩
        intro b hb
        rcases (mem_setInsert b x ys).mp hb with hb | hb
        · exact hb ▸ hyx
        · exact hy b hb

theorem pairwise_setOfList (l : List String) :
    (setOfList l).Pairwise (fun a b => strLt a b = true) := by
  induction l with
  | nil => simp [setOfList]
  | cons x xs ih => exact pairwise_setInsert x _ ih

theorem mem_setOfList (a : String) (l : List String) :
    a ∈ setOfList l ↔ a ∈ l := by
  induction l with
  | nil => simp [setOfList]
  | cons x xs ih =>
    simp only [setOfList, List.foldr_cons] at *
    rw [mem_setInsert, ih]
    simp

theorem nodup_setOfList (l : List String) : (setOfList l).Nodup :=
  (pairwise_setOfList l).imp strLt_ne

/-! ## `get_users` (src/action/shared.rs)

The two directory listings are passed in as the lists of file stems found
under `<pki>/issued` and `<pki>/private` (entries that are not regular
files, unreadable entries and stem-less entries are already skipped by
`list_names` with a warning, so they simply do not appear in these lists).
`names.remove(OsStr::new("ca"))` removes the stem `"ca"` from the private
side; the union of the two sets is then parsed stem-by-stem with
`Username::from_str`, dropping stems that fail to parse. -/

/-- `get_users`: sorted set of `issued` stems, union the sorted set of
`private` stems minus `"ca"`, each surviving stem filtered through
`Username::from_str`. -/
def getUsers (issued privKeys : List String) : List String :=
  let certNames := setOfList issued
  let keyNames := (setOfList privKeys).erase "ca"
  (setOfList (certNames ++ keyNames)).filterMap usernameFromStr

theorem getUsers_mem (issued privKeys : List String) (u : String) :
    u ∈ getUsers issued privKeys ↔
      (usernameFromStr u).isSome ∧ (u ∈ issued ∨ (u ∈ privKeys ∧ u ≠ "ca")) := by
  unfold getUsers
  simp only [List.mem_filterMap]
  constructor
  · rintro ⟨s, hs, hparse⟩
    have hsu : s = u := by
      by_cases h : s.data.any isUsernameChar
      · simpa [usernameFromStr, h] using hparse
      · simp [usernameFromStr, h] at hparse
    subst hsu
    rw [mem_setOfList, List.mem_append, mem_setOfList,
      (nodup_setOfList privKeys).mem_erase_iff, mem_setOfList] at hs
    refine ⟨by rw [hparse]; rfl, ?_⟩
    tauto
  · rintro ⟨hparse, hmem⟩
    refine ⟨u, ?_, ?_⟩
    · rw [mem_setOfList, List.mem_append, mem_setOfList,
        (nodup_setOfList privKeys).mem_erase_iff, mem_setOfList]
      tauto
    · by_cases h : u.data.any isUsernameChar
      · simp [usernameFromStr, h]
      · simp [usernameFromStr, h] at hparse

theorem filterMap_usernameFromStr (l : List String) :
    l.filterMap usernameFromStr = l.filter (fun s => s.data.any isUsernameChar) := by
  induction l with
  | nil => rfl
  | cons x xs ih =>
    by_cases h : x.data.any isUsernameChar <;>
      simp [usernameFromStr, h, ih]

theorem getUsers_pairwise (issued privKeys : List String) :
    (getUsers issued privKeys).Pairwise (fun a b => strLt a b = true) := by
  unfold getUsers
  rw [filterMap_usernameFromStr]
  exact (pairwise_setOfList _).filter _

/-! ## Expiry report parsing (src/action/shared.rs, `get_expired_users`)

The code matches every report line against the anchored regex

  `^V \| Serial: (?<serial>[\dA-F]+) \| (Expire(s|d): )?(?<date>[\d\-]+) (?<time>[\d:Z+\-]+) \| CN: (?<name>[^\s]+)$`

Because each character class excludes the character that begins the
following literal separator (`' '` is in no class), the regex is
unambiguous and equivalent to the deterministic maximal-munch parser
`lineCaptures` below.  Character classes are modelled at ASCII precision.
The `chrono` RFC 3339 timestamp parser and the clock are external to the
repository and are passed in as parameters: `parseInstant` maps the
concatenated `<date>T<time>` string to an abstract instant, and `now` is
the single value `Utc::now()` captured before the line scan.  The whole
scan is total: a non-matching or unparseable line produces no record and
no error. -/

/-- The regex class `[\dA-F]` (serial field). -/
def isHexChar (c : Char) : Bool := c.isDigit || ('A' ≤ c && c ≤ 'F')

/-- The regex class `[\d\-]` (date field). -/
def isDateChar (c : Char) : Bool := c.isDigit || c = '-'

/-- The regex class `[\d:Z+\-]` (time field). -/
def isTimeChar (c : Char) : Bool :=
  c.isDigit || c = ':' || c = 'Z' || c = '+' || c = '-'

/-- The regex class `[^\s]` (CN field), at ASCII whitespace precision. -/
def isCNChar (c : Char) : Bool := !c.isWhitespace

/-- Consume an exact literal from the front of the input. -/
def stripLit : List Char → List Char → Option (List Char)
  | [], s => some s
  | _ :: _, [] => none
  | p :: ps, c :: cs => if c = p then stripLit ps cs else none

/-- Consume one-or-more characters of a class (a regex `[class]+` atom);
fails on zero characters. -/
def token1 (p : Char → Bool) (s : List Char) : Option (List Char × List Char) :=
  if (s.takeWhile p).isEmpty then none else some (s.takeWhile p, s.dropWhile p)

/-- The optional `(Expire(s|d): )?` group: consume `"Expires: "` or
`"Expired: "` if present, else leave the input unchanged. -/
def afterMarker (r3 : List Char) : List Char :=
  match stripLit "Expires: ".data r3 with
  | some r => r
  | none =>
    match stripLit "Expired: ".data r3 with
    | some r => r
    | none => r3

/-- The full line matcher: returns the `serial`, `date`, `time` and `name`
captures when the line matches the code's regex, `none` otherwise.  The
`Expire(s|d): ` group is optional, exactly as in the code's pattern. -/
def lineCaptures (line : String) : Option (String × String × String × String) :=
  (stripLit "V | Serial: ".data line.data).bind fun r1 =>
  (token1 isHexChar r1).bind fun sr =>
  (stripLit " | ".data sr.2).bind fun r3 =>
  (token1 isDateChar (afterMarker r3)).bind fun dr =>
  (stripLit [' '] dr.2).bind fun r6 =>
  (token1 isTimeChar r6).bind fun tr =>
  (stripLit " | CN: ".data tr.2).bind fun r8 =>
  (token1 isCNChar r8).bind fun nr =>
  if nr.2.isEmpty then
    some (String.mk sr.1, String.mk dr.1, String.mk tr.1, String.mk nr.1)
  else none

/-- Handling of one report line inside the `filter_map` closure of
`get_expired_users`: match the regex, parse the CN as a `Username`, parse
`<date>T<time>` as an instant, and keep the name iff `now > expiry`. -/
def processLine (parseInstant : String → Option Int) (now : Int) (line : String) :
    Option String :=
  (lineCaptures line).bind fun caps =>
  (usernameFromStr caps.2.2.2).bind fun nm =>
  (parseInstant (caps.2.1 ++ "T" ++ caps.2.2.1)).bind fun expiry =>
  if now > expiry then some nm else none

/-- `get_expired_users`, applied to the report text already split into
lines: `Utc::now()` is read once into `now` before the scan, and every
line is classified against that one cutoff. -/
def getExpiredUsers (parseInstant : String → Option Int) (now : Int)
    (report : List String) : List String :=
  report.filterMap (processLine parseInstant now)

/-! ### Combinator lemmas -/

theorem stripLit_eq_some : ∀ {p s r : List Char}, stripLit p s = some r ↔ s = p ++ r := by
  intro p
  induction p with
  | nil =>
    intro s r
    simp [stripLit]
  | cons x ps ih =>
    intro s r
    cases s with
    | nil => simp [stripLit]
    | cons c cs =>
      by_cases h : c = x
      · subst h
        simp only [stripLit, if_pos rfl, List.cons_append, List.cons.injEq, true_and]
        exact ih
      · simp [stripLit, h]

theorem stripLit_pre (p r : List Char) : stripLit p (p ++ r) = some r :=
  stripLit_eq_some.mpr rfl

theorem stripLit_none_head {p0 c : Char} (ps cs : List Char) (h : c ≠ p0) :
    stripLit (p0 :: ps) (c :: cs) = none := by
  simp [stripLit, h]

/-- The next character of the remainder, if any, fails the class test:
the maximal-munch side condition of a `[class]+` atom. -/
def headNot (p : Char → Bool) : List Char → Prop
  | [] => True
  | c :: _ => p c = false

theorem headNot_dropWhile (p : Char → Bool) : ∀ (l : List Char), headNot p (l.dropWhile p) := by
  intro l
  induction l with
  | nil => trivial
  | cons c cs ih =>
    by_cases h : p c
    · simpa [List.dropWhile, h] using ih
    · simp [List.dropWhile, h, headNot]

theorem takeWhile_append_all {p : Char → Bool} :
    ∀ {t r : List Char}, t.all p = true → headNot p r →
      (t ++ r).takeWhile p = t ∧ (t ++ r).dropWhile p = r := by
  intro t
  induction t with
  | nil =>
    intro r _ hr
    cases r with
    | nil => exact ⟨rfl, rfl⟩
    | cons c cs =>
      have hc : p c = false := hr
      simp [List.takeWhile, List.dropWhile, hc]
  | cons a ts ih =>
    intro r ht hr
    rw [List.all_cons, Bool.and_eq_true] at ht
    have := ih ht.2 hr
    simp [List.takeWhile, List.dropWhile, ht.1, this.1, this.2]

theorem token1_eq_some {p : Char → Bool} {s t r : List Char} :
    token1 p s = some (t, r) ↔
      t ≠ [] ∧ t.all p = true ∧ headNot p r ∧ s = t ++ r := by
  constructor
  · intro h
    unfold token1 at h
    split at h
    · exact absurd h (by simp)
    · next hne =>
      injection h with h
      injection h with h1 h2
      subst h1; subst h2
      refine ⟨by simpa using hne, ?_, headNot_dropWhile p s, (List.takeWhile_append_dropWhile p s).symm⟩
      rw [List.all_eq_true]
      intro x hx
      exact List.mem_takeWhile_imp hx
  · rintro ⟨h1, h2, h3, h4⟩
    subst h4
    rcases takeWhile_append_all h2 h3 with ⟨e1, e2⟩
    unfold token1
    rw [e1, e2, if_neg (by simpa using h1)]

theorem token1_append {p : Char → Bool} {t r : List Char} (h1 : t ≠ [])
    (h2 : t.all p = true) (h3 : headNot p r) : token1 p (t ++ r) = some (t, r) :=
  token1_eq_some.mpr ⟨h1, h2, h3, rfl⟩

/-! ### The line grammar, as the specification words it -/

/-- The five-field report-line grammar with the `Expire(s|d): ` marker
OPTIONAL (writable as `"Expires: "`, `"Expired: "`, or absent), stated as
an explicit decomposition of the line into literal `" | "`-separated
fields: a "valid" status `V`, a non-empty hex serial, a date, a time and a
non-empty whitespace-free common name. -/
def SpecLineShape (line : String) : Prop :=
  ∃ serial marker date time name : List Char,
    line.data = "V | Serial: ".data ++ (serial ++ (" | ".data ++ (marker
      ++ (date ++ (' ' :: (time ++ (" | CN: ".data ++ name)))))))
    ∧ serial ≠ [] ∧ serial.all isHexChar = true
    ∧ (marker = "Expires: ".data ∨ marker = "Expired: ".data ∨ marker = [])
    ∧ date ≠ [] ∧ date.all isDateChar = true
    ∧ time ≠ [] ∧ time.all isTimeChar = true
    ∧ name ≠ [] ∧ name.all isCNChar = true

theorem afterMarker_pre (marker : List Char) (d0 : Char) (rest : List Char)
    (hm : marker = "Expires: ".data ∨ marker = "Expired: ".data ∨ marker = [])
    (hd0 : isDateChar d0 = true) :
    afterMarker (marker ++ (d0 :: rest)) = d0 :: rest := by
  rcases hm with hm | hm | hm
  · subst hm
    unfold afterMarker
    rw [stripLit_pre]
  · subst hm
    unfold afterMarker
    rw [show ∀ r : List Char, stripLit "Expires: ".data ("Expired: ".data ++ r) = none
      from fun _ => rfl, stripLit_pre]
  · subst hm
    rw [List.nil_append]
    have hE : d0 ≠ 'E' := by
      intro hceq
      subst hceq
      exact absurd hd0 (by simp [isDateChar])
    unfold afterMarker
    rw [stripLit_none_head _ _ hE, stripLit_none_head _ _ hE]

theorem lineCaptures_some_shape {line : String}
    {caps : String × String × String × String}
    (h : lineCaptures line = some caps) : SpecLineShape line := by
  unfold lineCaptures at h
  cases h1 : stripLit "V | Serial: ".data line.data with
  | none => simp [h1] at h
  | some r1 =>
  simp only [h1, Option.some_bind] at h
  cases h2 : token1 isHexChar r1 with
  | none => simp [h2] at h
  | some sr =>
  obtain ⟨serial, r2⟩ := sr
  simp only [h2, Option.some_bind] at h
  cases h3 : stripLit " | ".data r2 with
  | none => simp [h3] at h
  | some r3 =>
  simp only [h3, Option.some_bind] at h
  rw [stripLit_eq_some] at h1 h3
  rcases token1_eq_some.mp h2 with ⟨hs1, hs2, _, hseq⟩
  -- name the remainder after the optional marker, and record which marker
  -- (if any) was consumed
  have hmk : ∃ marker,
      (marker = "Expires: ".data ∨ marker = "Expired: ".data ∨ marker = [])
      ∧ r3 = marker ++ afterMarker r3 := by
    unfold afterMarker
    cases hE : stripLit "Expires: ".data r3 with
    | some r4 => exact ⟨"Expires: ".data, Or.inl rfl, stripLit_eq_some.mp hE⟩
    | none =>
      cases hD : stripLit "Expired: ".data r3 with
      | some r4 => exact ⟨"Expired: ".data, Or.inr (Or.inl rfl), stripLit_eq_some.mp hD⟩
      | none => exact ⟨[], Or.inr (Or.inr rfl), rfl⟩
  obtain ⟨marker, hmcase, hmeq⟩ := hmk
  cases h4 : token1 isDateChar (afterMarker r3) with
  | none => simp [h4] at h
  | some dr =>
  obtain ⟨date, r5⟩ := dr
  simp only [h4, Option.some_bind] at h
  cases h5 : stripLit [' '] r5 with
  | none => simp [h5] at h
  | some r6 =>
  simp only [h5, Option.some_bind] at h
  cases h6 : token1 isTimeChar r6 with
  | none => simp [h6] at h
  | some tr =>
  obtain ⟨time, r7⟩ := tr
  simp only [h6, Option.some_bind] at h
  cases h7 : stripLit " | CN: ".data r7 with
  | none => simp [h7] at h
  | some r8 =>
  simp only [h7, Option.some_bind] at h
  cases h8 : token1 isCNChar r8 with
  | none => simp [h8] at h
  | some nr =>
  obtain ⟨name, r9⟩ := nr
  simp only [h8, Option.some_bind] at h
  rcases token1_eq_some.mp h4 with ⟨hd1, hd2, _, hdeq⟩
  rcases token1_eq_some.mp h6 with ⟨ht1, ht2, _, hteq⟩
  rcases token1_eq_some.mp h8 with ⟨hn1, hn2, _, hneq⟩
  rw [stripLit_eq_some] at h5 h7
  have hr9 : r9 = [] := by
    by_cases hr : r9.isEmpty
    · simpa using hr
    · rw [if_neg hr] at h; exact absurd h (by simp)
  subst hr9
  refine ⟨serial, marker, date, time, name, ?_, hs1, hs2, hmcase, hd1, hd2,
    ht1, ht2, hn1, hn2⟩
  rw [h1, hseq, h3, hmeq, hdeq, h5, hteq, h7, hneq, List.append_nil]
  simp [List.append_assoc]

theorem shape_lineCaptures_isSome {line : String} (h : SpecLineShape line) :
    (lineCaptures line).isSome = true := by
  obtain ⟨serial, marker, date, time, name, heq, hs1, hs2, hmcase, hd1, hd2,
    ht1, ht2, hn1, hn2⟩ := h
  obtain ⟨d0, ds, rfl⟩ : ∃ d0 ds, date = d0 :: ds := by
    cases date with
    | nil => exact absurd rfl hd1
    | cons d0 ds => exact ⟨d0, ds, rfl⟩
  have hd0 : isDateChar d0 = true := by
    rw [List.all_cons, Bool.and_eq_true] at hd2
    exact hd2.1
  have e1 : stripLit "V | Serial: ".data line.data
      = some (serial ++ (" | ".data ++ (marker ++ (d0 :: ds
        ++ (' ' :: (time ++ (" | CN: ".data ++ name))))))) := by
    rw [heq]; exact stripLit_pre _ _
  have e2 : token1 isHexChar (serial ++ (" | ".data ++ (marker ++ (d0 :: ds
        ++ (' ' :: (time ++ (" | CN: ".data ++ name)))))))
      = some (serial, " | ".data ++ (marker ++ (d0 :: ds
        ++ (' ' :: (time ++ (" | CN: ".data ++ name)))))) :=
    token1_append hs1 hs2 rfl
  have e3 : stripLit " | ".data (" | ".data ++ (marker ++ (d0 :: ds
        ++ (' ' :: (time ++ (" | CN: ".data ++ name))))))
      = some (marker ++ (d0 :: ds ++ (' ' :: (time ++ (" | CN: ".data ++ name))))) :=
    stripLit_pre _ _
  have e4 : afterMarker (marker ++ (d0 :: ds ++ (' ' :: (time
        ++ (" | CN: ".data ++ name)))))
      = d0 :: ds ++ (' ' :: (time ++ (" | CN: ".data ++ name))) :=
    afterMarker_pre marker d0 _ hmcase hd0
  have e5 : token1 isDateChar (d0 :: ds ++ (' ' :: (time ++ (" | CN: ".data ++ name))))
      = some (d0 :: ds, ' ' :: (time ++ (" | CN: ".data ++ name))) :=
    token1_append hd1 hd2 rfl
  have e6 : stripLit [' '] (' ' :: (time ++ (" | CN: ".data ++ name)))
      = some (time ++ (" | CN: ".data ++ name)) :=
    stripLit_pre [' '] _
  have e7 : token1 isTimeChar (time ++ (" | CN: ".data ++ name))
      = some (time, " | CN: ".data ++ name) :=
    token1_append ht1 ht2 rfl
  have e8 : stripLit " | CN: ".data (" | CN: ".data ++ name) = some name :=
    stripLit_pre _ _
  have e9 : token1 isCNChar name = some (name, []) := by
    have h := token1_append hn1 hn2 (show headNot isCNChar [] from trivial)
    rwa [List.append_nil] at h
  unfold lineCaptures
  simp only [e1, Option.some_bind, e2, e3, e4, e5, e6, e7, e8, e9]
  rfl

theorem lineCaptures_isSome_iff (line : String) :
    (lineCaptures line).isSome = true ↔ SpecLineShape line := by
  constructor
  · intro h
    cases hc : lineCaptures line with
    | none => rw [hc] at h; exact absurd h (by simp)
    | some caps => exact lineCaptures_some_shape hc
  · exact shape_lineCaptures_isSome

/-- The five-field report-line grammar exactly as the specification words
it: here the `Expire(s|d): ` field is MANDATORY (`Expires: ` or
`Expired: `), unlike in the code's regex where it is optional. -/
def specLineStrict (line : String) : Bool :=
  ((stripLit "V | Serial: ".data line.data).bind fun r1 =>
    (token1 isHexChar r1).bind fun sr =>
    (stripLit " | ".data sr.2).bind fun r3 =>
    ((stripLit "Expires: ".data r3).orElse fun _ =>
      stripLit "Expired: ".data r3).bind fun r4 =>
    (token1 isDateChar r4).bind fun dr =>
    (stripLit [' '] dr.2).bind fun r6 =>
    (token1 isTimeChar r6).bind fun tr =>
    (stripLit " | CN: ".data tr.2).bind fun r8 =>
    (token1 isCNChar r8).bind fun nr =>
    if nr.2.isEmpty then some () else none).isSome

/-- A sample instantiation of the external RFC 3339 timestamp parser,
defined at the single timestamp the concrete report lines below use
(`chrono` parses `2020-01-01T00:00:00Z` successfully). -/
def demoInstant : String → Option Int := fun s =>
  if s = "2020-01-01T00:00:00Z" then some 0 else none

theorem processLine_eq_some (parseInstant : String → Option Int) (now : Int)
    (line u : String) :
    processLine parseInstant now line = some u ↔
      ∃ serial date time name,
        lineCaptures line = some (serial, date, time, name)
        ∧ usernameFromStr name = some u
        ∧ ∃ expiry, parseInstant (date ++ "T" ++ time) = some expiry
          ∧ expiry < now := by
  unfold processLine
  cases hc : lineCaptures line with
  | none => simp
  | some caps =>
  obtain ⟨serial, date, time, name⟩ := caps
  simp only [Option.some_bind, Option.some.injEq]
  constructor
  · intro h
    cases hu : usernameFromStr name with
    | none => rw [hu] at h; simp at h
    | some nm =>
    rw [hu] at h
    simp only [Option.some_bind] at h
    cases he : parseInstant (date ++ "T" ++ time) with
    | none => rw [he] at h; simp at h
    | some expiry =>
    rw [he] at h
    simp only [Option.some_bind] at h
    by_cases hlt : now > expiry
    · rw [if_pos hlt] at h
      injection h with h
      subst h
      exact ⟨serial, date, time, name, rfl, hu, expiry, he, hlt⟩
    · rw [if_neg hlt] at h; exact absurd h (by simp)
  · rintro ⟨s', d', t', n', hcaps, hu, expiry, he, hlt⟩
    injection hcaps with h1 hrest
    injection hrest with h2 hrest
    injection hrest with h3 h4
    subst h1; subst h2; subst h3; subst h4
    rw [hu]
    simp only [Option.some_bind]
    rw [he]
    simp only [Option.some_bind]
    rw [if_pos hlt]

/-- C2: for every filesystem state (every pair of stem listings),
`get_users` returns exactly the union of the `issued` stems and the
`private` stems minus the literal stem `"ca"` (removed from the private
side only), each stem surviving `Username` parsing, as a lexicographically
sorted sequence without duplicates; a stem present on only one side still
appears. -/
theorem getUsers_is_sorted_union (issued privKeys : List String) (u : String) :
    (u ∈ getUsers issued privKeys ↔
      (usernameFromStr u).isSome ∧ (u ∈ issued ∨ (u ∈ privKeys ∧ u ≠ "ca")))
    ∧ (getUsers issued privKeys).Pairwise (fun a b => strLt a b = true)
    ∧ (getUsers issued privKeys).Nodup :=
  ⟨getUsers_mem issued privKeys u, getUsers_pairwise issued privKeys,
    (getUsers_pairwise issued privKeys).imp strLt_ne⟩

/-- C3: the claim states that `Username` parsing succeeds iff the string
is a non-empty token consisting solely of word characters, digits, hyphens
and underscores, and in particular that strings containing a space, slash
or dot are rejected.  The code applies `Regex::is_match` with an
unanchored pattern, so any string merely CONTAINING one word character is
accepted: both `"a b"` and `"../x"` parse successfully even though the
documented grammar rejects them.  (A string with no word character at all,
such as `"!!"`, is still rejected.) -/
theorem usernameFromStr_unanchored :
    usernameFromStr "a b" = some "a b"
    ∧ specUsernameValid "a b" = false
    ∧ usernameFromStr "../x" = some "../x"
    ∧ specUsernameValid "../x" = false
    ∧ usernameFromStr "!!" = none :=
  ⟨rfl, rfl, rfl, rfl, rfl⟩

/-- C4 (counterexample): the line
`V | Serial: 0A | 2020-01-01 00:00:00Z | CN: bob` omits the
`Expire(s|d): ` field, so it does not match the five-field grammar as the
claim states it; yet `get_expired_users` produces (and classifies) a
record for exactly this line, because the code's regex marks the
`Expire(s|d): ` group optional. -/
theorem expiry_grammar_claim_cex :
    specLineStrict "V | Serial: 0A | 2020-01-01 00:00:00Z | CN: bob" = false
    ∧ processLine demoInstant 100 "V | Serial: 0A | 2020-01-01 00:00:00Z | CN: bob"
        = some "bob"
    ∧ getExpiredUsers demoInstant 100
        ["V | Serial: 0A | 2020-01-01 00:00:00Z | CN: bob"] = ["bob"] :=
  ⟨rfl, rfl, rfl⟩

/-- C4 (amended): a report line produces an expiry record only if it fully
matches the five-field grammar with the `Expire(s|d): ` marker optional
(the code's regex); the matcher's success is exactly the grammar
decomposition `SpecLineShape`, and every line that does not match the
grammar yields no record and raises no error. -/
theorem expiry_grammar_amended (parseInstant : String → Option Int) (now : Int)
    (line : String) :
    ((lineCaptures line).isSome = true ↔ SpecLineShape line)
    ∧ (¬ SpecLineShape line → processLine parseInstant now line = none) := by
  refine ⟨lineCaptures_isSome_iff line, ?_⟩
  intro hn
  cases hc : lineCaptures line with
  | none => unfold processLine; rw [hc]; rfl
  | some caps => exact absurd (lineCaptures_some_shape hc) hn

/-- Witness for `expiry_grammar_amended` at a concrete non-matching line. -/
theorem expiry_grammar_amended_witness :
    processLine demoInstant 0 "Expiring certificates, listed by date:" = none :=
  (expiry_grammar_amended demoInstant 0 "Expiring certificates, listed by date:").2
    (fun h => by
      have h2 := (expiry_grammar_amended demoInstant 0
        "Expiring certificates, listed by date:").1.mpr h
      rw [show lineCaptures "Expiring certificates, listed by date:" = none
        from rfl] at h2
      exact absurd h2 (by simp))

/-- C5: membership in the result of `get_expired_users` is characterised
against the ONE evaluation instant `now` captured before the scan: a user
is returned iff some report line matches the regex, its CN parses to that
user, its `<date>T<time>` parses to an instant, and that instant is
STRICTLY earlier than `now`; the same `now` is the cutoff for every line
of the report. -/
theorem getExpiredUsers_single_cutoff (parseInstant : String → Option Int)
    (now : Int) (report : List String) (u : String) :
    u ∈ getExpiredUsers parseInstant now report ↔
      ∃ line ∈ report, ∃ serial date time name,
        lineCaptures line = some (serial, date, time, name)
        ∧ usernameFromStr name = some u
        ∧ ∃ expiry, parseInstant (date ++ "T" ++ time) = some expiry
          ∧ expiry < now := by
  unfold getExpiredUsers
  rw [List.mem_filterMap]
  constructor
  · rintro ⟨line, hmem, hproc⟩
    exact ⟨line, hmem, (processLine_eq_some parseInstant now line u).mp hproc⟩
  · rintro ⟨line, hmem, hrest⟩
    exact ⟨line, hmem, (processLine_eq_some parseInstant now line u).mpr hrest⟩

/-! ## The write-side actions (src/action.rs)

`package`, `new_user` and `remove_user` interact with the filesystem and
spawn subprocesses.  The state is made explicit:

* the PKI directory listings (`issued`, `privKeys`) drive `get_users`;
* every fallible external step (temporary-directory creation, directory
  copy, script or subprocess execution, archive serialisation) is a
  Boolean oracle in the environment — `true` means the step succeeds;
* `certFile u` / `keyFile u` model the `is_file` test of
  `<pki>/issued/<u>.crt` / `<pki>/private/<u>.key` at use time (which may
  disagree with the stem listings: scan-time/use-time drift);
* the output directory is a map from file name to abstract content
  (`String → Option Nat`); `File::create` truncates (modelled as content
  `0`) and then the zip writer stores `zipBytes u`;
* every mutating step appends an event to a trace, so "what was written"
  is observable even when the action aborts half-way. -/

/-- The `packaging` section of a profile (`Packaging` in src/config.rs),
restricted to the fields `package` consults.  The two subpaths only
determine which intermediate directories are created, which the `subdirOk`
oracle absorbs. -/
structure PackagingSpec where
  skelMapScripts : List String
  certSubpath : String
  keySubpath : String

/-- One observable side effect of a `package` run. -/
inductive PkgEvent
  | tempDirCreated
  | skelCopied
  | scriptRun (script : String)
  | pkgParentCreated
  | userDirCopied (u : String)
  | subdirsCreated (u : String)
  | certCopied (u : String)
  | keyCopied (u : String)
  | fileCreated (archive : String)
  | archiveWritten (archive : String)
deriving DecidableEq

/-- The distinct failure causes of `package` (each `bail!`/`wrap_err` site). -/
inductive PkgErr
  | noPackaging (profileName : String)
  | unknownUser (u : String)
  | tempDirFail
  | skelCopyFail
  | scriptFail (script : String)
  | pkgParentFail
  | pkgDirTaken (u : String)
  | userCopyFail (u : String)
  | subdirFail (u : String)
  | certMissing (u : String)
  | certCopyFail (u : String)
  | keyMissing (u : String)
  | keyCopyFail (u : String)
  | alreadyExists (archive : String)
  | zipWriteFail (archive : String)
deriving DecidableEq

/-- Failure causes of `new_user`. -/
inductive NewErr
  | alreadyKnown (u : String)
  | buildFail (u : String)
deriving DecidableEq

/-- Failure causes of `remove_user`. -/
inductive RmErr
  | notKnown (u : String)
  | revokeFail (u : String)
  | crlFail
deriving DecidableEq

/-- The explicit world state an action runs against. -/
structure Env where
  profileName : String
  packaging : Option PackagingSpec
  issued : List String
  privKeys : List String
  tempDirOk : Bool
  skelCopyOk : Bool
  scriptOk : String → Bool
  pkgParentOk : Bool
  userCopyOk : String → Bool
  subdirOk : String → Bool
  certFile : String → Bool
  certCopyOk : String → Bool
  keyFile : String → Bool
  keyCopyOk : String → Bool
  zipOk : String → Bool
  zipBytes : String → Nat
  out0 : String → Option Nat
  buildOk : String → Bool
  revokeOk : String → Bool
  crlOk : Bool

/-- Membership test of a requested name in the known-user list
(`Vec::contains` in the code). -/
def knownContains (known : List String) (u : String) : Bool :=
  known.contains u

theorem knownContains_iff (known : List String) (u : String) :
    knownContains known u = true ↔ u ∈ known := by
  simp [knownContains]

theorem knownContains_nil (u : String) : knownContains [] u = false := rfl

/-- The archive file name: `<user>.zip`, or `<profile>-<user>.zip` when the
prefix flag is set. -/
def archiveName (addPfx : Bool) (profileName u : String) : String :=
  if addPfx then profileName ++ "-" ++ u ++ ".zip" else u ++ ".zip"

/-- Store content `v` under name `n` in an output-directory map. -/
def setFile (m : String → Option Nat) (n : String) (v : Nat) :
    String → Option Nat :=
  fun k => if k = n then some v else m k

/-- One iteration of the per-user packaging loop: copy the transformed
skeleton into `pkgs/<u>`, create the configured subdirectories, locate and
copy the certificate and the key, then create the archive file
(`File::create` when the overwrite flag is set, `File::create_new`
otherwise — the latter fails with a distinct "already exists" error when
the name is taken) and serialise the per-user tree into it.

`created` lists the usernames whose per-user directories earlier
iterations of the SAME run fully populated.  The skeleton copy uses
`DestinationDirectoryRule::AllowEmpty`, which rejects a non-empty existing
destination; a completed earlier iteration for the same username left
`pkgs/<u>` non-empty (it holds at least the copied certificate and key),
so the copy for a repeated username fails deterministically, before the
`userCopyOk` oracle models any other copy failure. -/
def packageUser (env : Env) (addPfx force : Bool) (u : String)
    (created : List String) (out : String → Option Nat) :
    Except PkgErr Unit × (String → Option Nat) × List PkgEvent :=
  if knownContains created u then (.error (.pkgDirTaken u), out, [])
  else if !env.userCopyOk u then (.error (.userCopyFail u), out, [])
  else if !env.subdirOk u then
    (.error (.subdirFail u), out, [.userDirCopied u])
  else if !env.certFile u then
    (.error (.certMissing u), out, [.userDirCopied u, .subdirsCreated u])
  else if !env.certCopyOk u then
    (.error (.certCopyFail u), out, [.userDirCopied u, .subdirsCreated u])
  else if !env.keyFile u then
    (.error (.keyMissing u), out,
      [.userDirCopied u, .subdirsCreated u, .certCopied u])
  else if !env.keyCopyOk u then
    (.error (.keyCopyFail u), out,
      [.userDirCopied u, .subdirsCreated u, .certCopied u])
  else if !force && (out (archiveName addPfx env.profileName u)).isSome then
    (.error (.alreadyExists (archiveName addPfx env.profileName u)), out,
      [.userDirCopied u, .subdirsCreated u, .certCopied u, .keyCopied u])
  else if !env.zipOk u then
    (.error (.zipWriteFail (archiveName addPfx env.profileName u)),
      setFile out (archiveName addPfx env.profileName u) 0,
      [.userDirCopied u, .subdirsCreated u, .certCopied u, .keyCopied u,
        .fileCreated (archiveName addPfx env.profileName u)])
  else
    (.ok (),
      setFile (setFile out (archiveName addPfx env.profileName u) 0)
        (archiveName addPfx env.profileName u) (env.zipBytes u),
      [.userDirCopied u, .subdirsCreated u, .certCopied u, .keyCopied u,
        .fileCreated (archiveName addPfx env.profileName u),
        .archiveWritten (archiveName addPfx env.profileName u)])

/-- The per-user loop of `package`: users are processed strictly in the
requested order, and the first failing user aborts the loop (the archives
already written stay in the output directory).  A username whose iteration
completes is added to the `created` list: its `pkgs/<u>` directory is now
populated, so a later occurrence of the same name fails its skeleton
copy. -/
def packageUsers (env : Env) (addPfx force : Bool) :
    List String → List String → (String → Option Nat) →
    Except PkgErr Unit × (String → Option Nat) × List PkgEvent
  | [], _, out => (.ok (), out, [])
  | u :: rest, created, out =>
    match packageUser env addPfx force u created out with
    | (.error e, out1, evs1) => (.error e, out1, evs1)
    | (.ok _, out1, evs1) =>
      match packageUsers env addPfx force rest (u :: created) out1 with
      | (res, out2, evs2) => (res, out2, evs1 ++ evs2)

/-- The skeleton-transform scripts, run strictly in declared order; the
first failing script (which did execute) aborts the remainder. -/
def runSkelScripts (env : Env) : List String → Option String × List PkgEvent
  | [] => (none, [])
  | s :: rest =>
    if env.scriptOk s then
      match runSkelScripts env rest with
      | (failed, evs) => (failed, .scriptRun s :: evs)
    else (some s, [.scriptRun s])

/-- `package` (src/action.rs): sanity checks (packaging section present,
every requested user known), then the staging phase (temporary workspace,
skeleton copy, transform scripts, package parent directory), then the
per-user loop.  Returns the outcome, the final output-directory map, and
the event trace. -/
def package (env : Env) (usernames : List String) (addPfx force : Bool) :
    Except PkgErr Unit × (String → Option Nat) × List PkgEvent :=
  match env.packaging with
  | none => (.error (.noPackaging env.profileName), env.out0, [])
  | some pkg =>
    let known := getUsers env.issued env.privKeys
    match usernames.find? (fun u => !knownContains known u) with
    | some u => (.error (.unknownUser u), env.out0, [])
    | none =>
      if !env.tempDirOk then (.error .tempDirFail, env.out0, [])
      else if !env.skelCopyOk then
        (.error .skelCopyFail, env.out0, [.tempDirCreated])
      else
        match runSkelScripts env pkg.skelMapScripts with
        | (some s, evs) =>
          (.error (.scriptFail s), env.out0,
            .tempDirCreated :: .skelCopied :: evs)
        | (none, evs) =>
          if !env.pkgParentOk then
            (.error .pkgParentFail, env.out0,
              .tempDirCreated :: .skelCopied :: evs)
          else
            match packageUsers env addPfx force usernames [] env.out0 with
            | (res, out, uevs) =>
              (res, out,
                .tempDirCreated :: .skelCopied ::
                  (evs ++ (.pkgParentCreated :: uevs)))

/-- The archives fully serialised during a run, in order of writing. -/
def archivesOf (evs : List PkgEvent) : List String :=
  evs.filterMap fun e =>
    match e with
    | .archiveWritten n => some n
    | _ => none

/-- `[xs]` on success, `[]` on failure. -/
def onOk (r : Except PkgErr Unit) (xs : List String) : List String :=
  match r with
  | .ok _ => xs
  | .error _ => []

/-- The failures that occur before the per-user loop starts. -/
def isPreLoopFailure : Except PkgErr Unit → Bool
  | .error (.noPackaging _) => true
  | .error (.unknownUser _) => true
  | .error .tempDirFail => true
  | .error .skelCopyFail => true
  | .error (.scriptFail _) => true
  | .error .pkgParentFail => true
  | _ => false

/-- The validation failures of `package`, raised before any mutation. -/
def isValidationFailure : Except PkgErr Unit → Bool
  | .error (.noPackaging _) => true
  | .error (.unknownUser _) => true
  | _ => false

/-- The per-user loop of `new_user`: one `easy-rsa build-client-full`
invocation per requested name, aborting at the first failure.  The second
component lists the performed invocations in order. -/
def newUserLoop (env : Env) : List String → Except NewErr Unit × List String
  | [] => (.ok (), [])
  | u :: rest =>
    if env.buildOk u then
      match newUserLoop env rest with
      | (res, invs) => (res, u :: invs)
    else (.error (.buildFail u), [u])

/-- `new_user` (src/action.rs): reject any requested name that is already
known, then invoke the external tool once per requested name. -/
def newUser (env : Env) (usernames : List String) :
    Except NewErr Unit × List String :=
  let known := getUsers env.issued env.privKeys
  match usernames.find? (fun u => knownContains known u) with
  | some u => (.error (.alreadyKnown u), [])
  | none => newUserLoop env usernames

/-- The per-user loop of `remove_user`: one `easy-rsa revoke` invocation
per requested name, aborting at the first failure. -/
def removeUserLoop (env : Env) : List String → Except RmErr Unit × List String
  | [] => (.ok (), [])
  | u :: rest =>
    if env.revokeOk u then
      match removeUserLoop env rest with
      | (res, invs) => (res, u :: invs)
    else (.error (.revokeFail u), [u])

/-- `remove_user` (src/action.rs): reject any requested name that is not
known, revoke each requested name in order, then optionally regenerate the
CRL. -/
def removeUser (env : Env) (usernames : List String) (updateCrl : Bool) :
    Except RmErr Unit × List String :=
  let known := getUsers env.issued env.privKeys
  match usernames.find? (fun u => !knownContains known u) with
  | some u => (.error (.notKnown u), [])
  | none =>
    match removeUserLoop env usernames with
    | (.error e, invs) => (.error e, invs)
    | (.ok _, invs) =>
      if updateCrl && !env.crlOk then (.error .crlFail, invs)
      else (.ok (), invs)

/-! ### Delivery lemmas for `package` -/

theorem archivesOf_append (a b : List PkgEvent) :
    archivesOf (a ++ b) = archivesOf a ++ archivesOf b :=
  List.filterMap_append a b _

theorem packageUser_archives (env : Env) (addPfx force : Bool) (u : String)
    (created : List String) (out : String → Option Nat) :
    archivesOf (packageUser env addPfx force u created out).2.2
      = onOk (packageUser env addPfx force u created out).1
          [archiveName addPfx env.profileName u] := by
  unfold packageUser
  split_ifs <;> rfl

theorem packageUser_no_early_err (env : Env) (addPfx force : Bool) (u : String)
    (created : List String) (out : String → Option Nat) :
    isPreLoopFailure (packageUser env addPfx force u created out).1 = false := by
  unfold packageUser
  split_ifs <;> rfl

theorem validation_false_of_preLoop_false {r : Except PkgErr Unit}
    (h : isPreLoopFailure r = false) : isValidationFailure r = false := by
  cases r with
  | ok _ => rfl
  | error e => cases e <;> simp_all [isPreLoopFailure, isValidationFailure]

theorem packageUsers_spec (env : Env) (addPfx force : Bool) :
    ∀ (users created : List String) (out : String → Option Nat),
      archivesOf (packageUsers env addPfx force users created out).2.2
        = (users.take
            (archivesOf (packageUsers env addPfx force users created out).2.2).length).map
              (archiveName addPfx env.profileName)
      ∧ (archivesOf (packageUsers env addPfx force users created out).2.2).length
          ≤ users.length
      ∧ ((packageUsers env addPfx force users created out).1 = .ok () →
          archivesOf (packageUsers env addPfx force users created out).2.2
            = users.map (archiveName addPfx env.profileName))
      ∧ isPreLoopFailure (packageUsers env addPfx force users created out).1 = false := by
  intro users
  induction users with
  | nil =>
    intro created out
    exact ⟨rfl, by simp [packageUsers, archivesOf], fun _ => rfl, rfl⟩
  | cons u rest ih =>
    intro created out
    have hpu := packageUser_archives env addPfx force u created out
    have hpe := packageUser_no_early_err env addPfx force u created out
    rcases hres : packageUser env addPfx force u created out with ⟨res1, out1, evs1⟩
    rw [hres] at hpu hpe
    cases res1 with
    | error e =>
      have heval : packageUsers env addPfx force (u :: rest) created out
          = (.error e, out1, evs1) := by
        simp [packageUsers, hres]
      have harch : archivesOf evs1 = [] := hpu
      rw [heval]
      refine ⟨by simp [harch], by simp [harch], ?_, hpe⟩
      intro habs
      exact absurd habs (by simp)
    | ok uu =>
      cases uu
      rcases hrec : packageUsers env addPfx force rest (u :: created) out1 with
        ⟨res2, out2, evs2⟩
      have heval : packageUsers env addPfx force (u :: rest) created out
          = (res2, out2, evs1 ++ evs2) := by
        simp [packageUsers, hres, hrec]
      have harch : archivesOf evs1 = [archiveName addPfx env.profileName u] := hpu
      have hrest := ih (u :: created) out1
      rw [hrec] at hrest
      rw [heval]
      simp only [archivesOf_append, harch]
      obtain ⟨ha, hb, hc, hd⟩ := hrest
      refine ⟨?_, ?_, ?_, hd⟩
      · simp only [List.singleton_append, List.length_cons, List.take_succ_cons,
          List.map_cons]
        rw [← ha]
      · simpa using Nat.succ_le_succ hb
      · intro hok
        simp only [List.singleton_append, List.map_cons]
        rw [hc hok]

theorem archivesOf_skelScripts (env : Env) :
    ∀ (ss : List String), archivesOf (runSkelScripts env ss).2 = [] := by
  intro ss
  induction ss with
  | nil => rfl
  | cons s rest ih =>
    by_cases h : env.scriptOk s
    · rcases hrec : runSkelScripts env rest with ⟨failed, evs⟩
      rw [hrec] at ih
      simp [runSkelScripts, h, hrec, archivesOf]
      simpa [archivesOf] using ih
    · simp [runSkelScripts, h, archivesOf]

theorem runSkelScripts_all_ok (env : Env) :
    ∀ (ss : List String), ss.all env.scriptOk = true →
      runSkelScripts env ss = (none, ss.map PkgEvent.scriptRun) := by
  intro ss
  induction ss with
  | nil => intro _; rfl
  | cons s rest ih =>
    intro h
    rw [List.all_cons, Bool.and_eq_true] at h
    simp [runSkelScripts, h.1, ih h.2]

/-- C1 (counterexample): `demoEnv` is a healthy world except that the
certificate file of `"bob"` is missing at use time.  Packaging the batch
`["alice", "bob"]` fails — but `alice.zip` has already been fully written
to the output directory and stays there, so a failing batch does NOT
deliver zero archives. -/
def demoEnv : Env where
  profileName := "corp"
  packaging := some
    { skelMapScripts := ["patch-skel"]
      certSubpath := "creds/client.crt"
      keySubpath := "creds/client.key" }
  issued := ["alice", "bob"]
  privKeys := ["alice", "bob", "ca"]
  tempDirOk := true
  skelCopyOk := true
  scriptOk := fun _ => true
  pkgParentOk := true
  userCopyOk := fun _ => true
  subdirOk := fun _ => true
  certFile := fun u => u != "bob"
  certCopyOk := fun _ => true
  keyFile := fun _ => true
  keyCopyOk := fun _ => true
  zipOk := fun _ => true
  zipBytes := fun _ => 7
  out0 := fun _ => none
  buildOk := fun _ => true
  revokeOk := fun _ => true
  crlOk := true

/-- C1 (counterexample): a failure partway through the per-user loop (here
a certificate missing at use time for the second user) aborts the batch,
yet the first user's archive has already been delivered: the batch is not
all-or-nothing. -/
theorem package_not_all_or_nothing_cex :
    (package demoEnv ["alice", "bob"] false false).1
        = .error (.certMissing "bob")
    ∧ archivesOf (package demoEnv ["alice", "bob"] false false).2.2
        = ["alice.zip"]
    ∧ (package demoEnv ["alice", "bob"] false false).2.1 "alice.zip" = some 7 :=
  ⟨rfl, rfl, rfl⟩

/-- C1 (amended): the archives a `package` run delivers are exactly the
archive names of an order-preserving PREFIX of the requested users: on
success the prefix is the whole batch (exactly one archive per requested
user); a validation or staging failure (missing packaging section, unknown
user, workspace creation, skeleton copy, transform script, parent
directory) delivers zero archives; a failure partway through the per-user
loop leaves exactly the archives of the users completed before the
failure — the batch is NOT rolled back. -/
theorem package_delivery_head (env : Env) (usernames : List String)
    (addPfx force : Bool) :
    archivesOf (package env usernames addPfx force).2.2
      = (usernames.take
          (archivesOf (package env usernames addPfx force).2.2).length).map
            (archiveName addPfx env.profileName)
    ∧ (archivesOf (package env usernames addPfx force).2.2).length
        ≤ usernames.length
    ∧ ((package env usernames addPfx force).1 = .ok () →
        archivesOf (package env usernames addPfx force).2.2
          = usernames.map (archiveName addPfx env.profileName))
    ∧ (isPreLoopFailure (package env usernames addPfx force).1 = true →
        archivesOf (package env usernames addPfx force).2.2 = []) := by
  cases hpk : env.packaging with
  | none =>
    have heval : package env usernames addPfx force
        = (.error (.noPackaging env.profileName), env.out0, []) := by
      simp [package, hpk]
    rw [heval]
    exact ⟨rfl, by simp [archivesOf], fun habs => absurd habs (by simp),
      fun _ => rfl⟩
  | some pkg =>
  cases hfind : usernames.find?
      (fun u => !knownContains (getUsers env.issued env.privKeys) u) with
  | some v =>
    have heval : package env usernames addPfx force
        = (.error (.unknownUser v), env.out0, []) := by
      simp [package, hpk, hfind]
    rw [heval]
    exact ⟨rfl, by simp [archivesOf], fun habs => absurd habs (by simp),
      fun _ => rfl⟩
  | none =>
  cases htd : env.tempDirOk with
  | false =>
    have heval : package env usernames addPfx force
        = (.error .tempDirFail, env.out0, []) := by
      simp [package, hpk, hfind, htd]
    rw [heval]
    exact ⟨rfl, by simp [archivesOf], fun habs => absurd habs (by simp),
      fun _ => rfl⟩
  | true =>
  cases hsc : env.skelCopyOk with
  | false =>
    have heval : package env usernames addPfx force
        = (.error .skelCopyFail, env.out0, [.tempDirCreated]) := by
      simp [package, hpk, hfind, htd, hsc]
    have harch : archivesOf [PkgEvent.tempDirCreated] = [] := rfl
    rw [heval]
    exact ⟨by simp [harch], by simp [harch], fun habs => absurd habs (by simp),
      fun _ => by simp [harch]⟩
  | true =>
  rcases hrun : runSkelScripts env pkg.skelMapScripts with ⟨failed, sevs⟩
  have hsevs : archivesOf sevs = [] := by
    have := archivesOf_skelScripts env pkg.skelMapScripts
    rw [hrun] at this
    exact this
  cases failed with
  | some s =>
    have heval : package env usernames addPfx force
        = (.error (.scriptFail s), env.out0,
            .tempDirCreated :: .skelCopied :: sevs) := by
      simp [package, hpk, hfind, htd, hsc, hrun]
    have harch : archivesOf (PkgEvent.tempDirCreated :: PkgEvent.skelCopied :: sevs)
        = [] := by
      rw [show archivesOf (PkgEvent.tempDirCreated :: PkgEvent.skelCopied :: sevs)
        = archivesOf sevs from rfl, hsevs]
    rw [heval]
    exact ⟨by simp [harch], by simp [harch], fun habs => absurd habs (by simp),
      fun _ => by simp [harch]⟩
  | none =>
  cases hpp : env.pkgParentOk with
  | false =>
    have heval : package env usernames addPfx force
        = (.error .pkgParentFail, env.out0,
            .tempDirCreated :: .skelCopied :: sevs) := by
      simp [package, hpk, hfind, htd, hsc, hrun, hpp]
    have harch : archivesOf (PkgEvent.tempDirCreated :: PkgEvent.skelCopied :: sevs)
        = [] := by
      rw [show archivesOf (PkgEvent.tempDirCreated :: PkgEvent.skelCopied :: sevs)
        = archivesOf sevs from rfl, hsevs]
    rw [heval]
    exact ⟨by simp [harch], by simp [harch], fun habs => absurd habs (by simp),
      fun _ => by simp [harch]⟩
  | true =>
  rcases hloop : packageUsers env addPfx force usernames [] env.out0 with
    ⟨res, outF, uevs⟩
  have heval : package env usernames addPfx force
      = (res, outF,
          .tempDirCreated :: .skelCopied :: (sevs ++ (.pkgParentCreated :: uevs))) := by
    simp [package, hpk, hfind, htd, hsc, hrun, hpp, hloop]
  have hspec := packageUsers_spec env addPfx force usernames [] env.out0
  rw [hloop] at hspec
  obtain ⟨s1, s2, s3, s4⟩ := hspec
  have harch : archivesOf (PkgEvent.tempDirCreated :: PkgEvent.skelCopied ::
      (sevs ++ (PkgEvent.pkgParentCreated :: uevs))) = archivesOf uevs := by
    rw [show archivesOf (PkgEvent.tempDirCreated :: PkgEvent.skelCopied ::
        (sevs ++ (PkgEvent.pkgParentCreated :: uevs)))
      = archivesOf (sevs ++ (PkgEvent.pkgParentCreated :: uevs)) from rfl]
    rw [archivesOf_append, hsevs,
      show archivesOf (PkgEvent.pkgParentCreated :: uevs) = archivesOf uevs from rfl,
      List.nil_append]
  rw [heval]
  simp only [harch]
  exact ⟨s1, s2, s3, fun hpre => by rw [s4] at hpre; exact absurd hpre (by simp)⟩

/-- Witness for `package_delivery_head`: a fully successful two-user
batch delivers exactly one archive per requested user, in order. -/
theorem package_delivery_head_witness :
    (package demoEnv ["alice"] false false).1 = .ok ()
    ∧ archivesOf (package demoEnv ["alice"] false false).2.2 = ["alice.zip"] :=
  ⟨rfl, (package_delivery_head demoEnv ["alice"] false false).2.2.1 rfl⟩

/-- C6: if any requested username is not in the known-user set derived
from the directory scan, `package` rejects the whole batch as a validation
failure before creating the temporary workspace and before any filesystem
mutation: the event trace is empty and the output directory is exactly the
initial one — zero archives are written, including for the requested users
that are known. -/
theorem package_unknown_rejects_batch (env : Env) (usernames : List String)
    (u : String) (addPfx force : Bool)
    (hu : u ∈ usernames)
    (hk : knownContains (getUsers env.issued env.privKeys) u = false) :
    isValidationFailure (package env usernames addPfx force).1 = true
    ∧ (package env usernames addPfx force).2.2 = []
    ∧ (package env usernames addPfx force).2.1 = env.out0 := by
  cases hpk : env.packaging with
  | none =>
    have heval : package env usernames addPfx force
        = (.error (.noPackaging env.profileName), env.out0, []) := by
      simp [package, hpk]
    rw [heval]
    exact ⟨rfl, rfl, rfl⟩
  | some pkg =>
    cases hf : usernames.find?
        (fun v => !knownContains (getUsers env.issued env.privKeys) v) with
    | none =>
      have := List.find?_eq_none.mp hf u hu
      rw [hk] at this
      exact absurd rfl this
    | some v =>
      have heval : package env usernames addPfx force
          = (.error (.unknownUser v), env.out0, []) := by
        simp [package, hpk, hf]
      rw [heval]
      exact ⟨rfl, rfl, rfl⟩

/-- Witness for `package_unknown_rejects_batch`: requesting
`["alice", "ghost"]` where `"ghost"` has no credential on disk rejects the
batch with an empty trace; no archive for `"alice"` is produced either. -/
theorem package_unknown_rejects_batch_witness :
    ("ghost" ∈ ["alice", "ghost"])
    ∧ knownContains (getUsers demoEnv.issued demoEnv.privKeys) "ghost" = false
    ∧ isValidationFailure (package demoEnv ["alice", "ghost"] false false).1 = true
    ∧ (package demoEnv ["alice", "ghost"] false false).2.2 = [] := by
  refine ⟨by simp, rfl, ?_, ?_⟩
  · exact (package_unknown_rejects_batch demoEnv ["alice", "ghost"] "ghost"
      false false (by simp) rfl).1
  · exact (package_unknown_rejects_batch demoEnv ["alice", "ghost"] "ghost"
      false false (by simp) rfl).2.1

/-! ### Overwrite behaviour of the archive-creation step -/

theorem packageUser_preserves (env : Env) (addPfx : Bool) (u : String)
    (created : List String) (out : String → Option Nat) (n : String) (c : Nat)
    (hout : out n = some c) :
    (packageUser env addPfx false u created out).2.1 n = some c := by
  unfold packageUser
  split_ifs with h0 h1 h2 h3 h4 h5 h6 h7 h8
  · exact hout
  · exact hout
  · exact hout
  · exact hout
  · exact hout
  · exact hout
  · exact hout
  · exact hout
  · -- `File::create_new` succeeded, so the name was previously absent;
    -- the zip write then failed, leaving the truncated file behind
    simp only [setFile]
    split
    · next hn =>
      rw [hn] at hout
      rw [Bool.not_false, Bool.true_and] at h7
      rw [hout] at h7
      exact absurd rfl h7
    · exact hout
  · simp only [setFile]
    split
    · next hn =>
      rw [hn] at hout
      rw [Bool.not_false, Bool.true_and] at h7
      rw [hout] at h7
      exact absurd rfl h7
    · exact hout

theorem packageUsers_preserves (env : Env) (addPfx : Bool) :
    ∀ (users created : List String) (out : String → Option Nat) (n : String) (c : Nat),
      out n = some c →
        (packageUsers env addPfx false users created out).2.1 n = some c := by
  intro users
  induction users with
  | nil => intro created out n c h; exact h
  | cons u rest ih =>
    intro created out n c h
    have hp := packageUser_preserves env addPfx u created out n c h
    rcases hres : packageUser env addPfx false u created out with ⟨res1, out1, evs1⟩
    rw [hres] at hp
    cases res1 with
    | error e => simpa [packageUsers, hres] using hp
    | ok uu =>
      cases uu
      rcases hrec : packageUsers env addPfx false rest (u :: created) out1 with
        ⟨res2, out2, evs2⟩
      have := ih (u :: created) out1 n c hp
      rw [hrec] at this
      simpa [packageUsers, hres, hrec] using this

theorem package_preserves (env : Env) (usernames : List String) (addPfx : Bool)
    (n : String) (c : Nat) (h : env.out0 n = some c) :
    (package env usernames addPfx false).2.1 n = some c := by
  cases hpk : env.packaging with
  | none => simpa [package, hpk] using h
  | some pkg =>
  cases hfind : usernames.find?
      (fun u => !knownContains (getUsers env.issued env.privKeys) u) with
  | some v => simpa [package, hpk, hfind] using h
  | none =>
  cases htd : env.tempDirOk with
  | false => simpa [package, hpk, hfind, htd] using h
  | true =>
  cases hsc : env.skelCopyOk with
  | false => simpa [package, hpk, hfind, htd, hsc] using h
  | true =>
  rcases hrun : runSkelScripts env pkg.skelMapScripts with ⟨failed, sevs⟩
  cases failed with
  | some s => simpa [package, hpk, hfind, htd, hsc, hrun] using h
  | none =>
  cases hpp : env.pkgParentOk with
  | false => simpa [package, hpk, hfind, htd, hsc, hrun, hpp] using h
  | true =>
  rcases hloop : packageUsers env addPfx false usernames [] env.out0 with
    ⟨res, outF, uevs⟩
  have := packageUsers_preserves env addPfx usernames [] env.out0 n c h
  rw [hloop] at this
  simpa [package, hpk, hfind, htd, hsc, hrun, hpp, hloop] using this

/-- Every precondition of the archive-creation step for user `u`: a
packaging section exists, `u` is known, and every staging and per-user
step before (and including) the zip serialisation succeeds. -/
def stagingOk (env : Env) (u : String) : Bool :=
  match env.packaging with
  | none => false
  | some pkg =>
    knownContains (getUsers env.issued env.privKeys) u
    && env.tempDirOk && env.skelCopyOk
    && pkg.skelMapScripts.all env.scriptOk
    && env.pkgParentOk
    && env.userCopyOk u && env.subdirOk u
    && env.certFile u && env.certCopyOk u
    && env.keyFile u && env.keyCopyOk u
    && env.zipOk u

/-- C7: when the overwrite flag is not set and the output directory
already holds a file with the computed archive name, `package` fails with
the distinct "already exists" error and the pre-existing file keeps its
content byte for byte (indeed, with the overwrite flag unset NO
pre-existing file is ever touched, whatever the batch); when the overwrite
flag is set, the existing file is replaced by the fresh archive. -/
theorem package_overwrite_guard (env : Env) (u : String) (addPfx : Bool)
    (usernames : List String) (n : String) (c : Nat)
    (h : stagingOk env u = true) :
    (env.out0 (archiveName addPfx env.profileName u) = some c →
      (package env [u] addPfx false).1
          = .error (.alreadyExists (archiveName addPfx env.profileName u))
      ∧ (package env [u] addPfx false).2.1 (archiveName addPfx env.profileName u)
          = some c)
    ∧ ((package env [u] addPfx true).1 = .ok ()
      ∧ (package env [u] addPfx true).2.1 (archiveName addPfx env.profileName u)
          = some (env.zipBytes u))
    ∧ (env.out0 n = some c →
        (package env usernames addPfx false).2.1 n = some c) := by
  rcases hpk : env.packaging with _ | pkg
  · rw [stagingOk, hpk] at h
    exact absurd h (by simp)
  · rw [stagingOk, hpk] at h
    simp only [Bool.and_eq_true] at h
    obtain ⟨⟨⟨⟨⟨⟨⟨⟨⟨⟨⟨hknown, htd⟩, hsc⟩, hall⟩, hpp⟩, hcopy⟩, hsub⟩, hcert⟩,
      hcc⟩, hkey⟩, hkc⟩, hzip⟩ := h
    have hfind : [u].find?
        (fun v => !knownContains (getUsers env.issued env.privKeys) v) = none := by
      simp [List.find?, hknown]
    have hrun := runSkelScripts_all_ok env pkg.skelMapScripts hall
    refine ⟨?_, ?_, fun hnc => package_preserves env usernames addPfx n c hnc⟩
    · intro hout
      have hv : (env.out0 (archiveName addPfx env.profileName u)).isSome = true := by
        rw [hout]; rfl
      constructor
      · simp [package, hpk, hfind, htd, hsc, hrun, hpp, packageUsers,
          packageUser, knownContains_nil, hcopy, hsub, hcert, hcc, hkey, hkc, hv]
      · simp [package, hpk, hfind, htd, hsc, hrun, hpp, packageUsers,
          packageUser, knownContains_nil, hcopy, hsub, hcert, hcc, hkey, hkc, hv,
          hout]
    · constructor
      · simp [package, hpk, hfind, htd, hsc, hrun, hpp, packageUsers,
          packageUser, knownContains_nil, hcopy, hsub, hcert, hcc, hkey, hkc, hzip]
      · simp [package, hpk, hfind, htd, hsc, hrun, hpp, packageUsers,
          packageUser, knownContains_nil, hcopy, hsub, hcert, hcc, hkey, hkc, hzip,
          setFile]

/-- A world in which `"alice"` is fully packageable and `alice.zip`
already exists in the output directory with content `5`. -/
def demoEnvTaken : Env :=
  { demoEnv with
    certFile := fun _ => true
    out0 := fun k => if k = "alice.zip" then some 5 else none }

/-- Witness for `package_overwrite_guard` at `demoEnvTaken`: without the
overwrite flag the run fails with the "already exists" error and the old
content `5` survives; with the flag the file is replaced by the fresh
archive (content `7`). -/
theorem package_overwrite_guard_witness :
    stagingOk demoEnvTaken "alice" = true
    ∧ demoEnvTaken.out0 "alice.zip" = some 5
    ∧ (package demoEnvTaken ["alice"] false false).1
        = .error (.alreadyExists "alice.zip")
    ∧ (package demoEnvTaken ["alice"] false false).2.1 "alice.zip" = some 5
    ∧ (package demoEnvTaken ["alice"] false true).1 = .ok ()
    ∧ (package demoEnvTaken ["alice"] false true).2.1 "alice.zip" = some 7 := by
  refine ⟨rfl, rfl, ?_, ?_, ?_, ?_⟩
  · exact ((package_overwrite_guard demoEnvTaken "alice" false ["alice"]
      "alice.zip" 5 rfl).1 rfl).1
  · exact ((package_overwrite_guard demoEnvTaken "alice" false ["alice"]
      "alice.zip" 5 rfl).1 rfl).2
  · exact (package_overwrite_guard demoEnvTaken "alice" false ["alice"]
      "alice.zip" 5 rfl).2.1.1
  · exact (package_overwrite_guard demoEnvTaken "alice" false ["alice"]
      "alice.zip" 5 rfl).2.1.2

/-! ### Duplicate requested usernames -/

/-- The validation failure of `new_user` (requested name already known). -/
def isNewValidationErr : Except NewErr Unit → Bool
  | .error (.alreadyKnown _) => true
  | _ => false

/-- The validation failure of `remove_user` (requested name not known). -/
def isRmValidationErr : Except RmErr Unit → Bool
  | .error (.notKnown _) => true
  | _ => false

theorem newUserLoop_no_validation_err (env : Env) :
    ∀ (users : List String), isNewValidationErr (newUserLoop env users).1 = false := by
  intro users
  induction users with
  | nil => rfl
  | cons u rest ih =>
    by_cases h : env.buildOk u
    · rcases hrec : newUserLoop env rest with ⟨res, invs⟩
      rw [hrec] at ih
      simpa [newUserLoop, h, hrec] using ih
    · simp [newUserLoop, h, isNewValidationErr]

theorem removeUserLoop_no_validation_err (env : Env) :
    ∀ (users : List String), isRmValidationErr (removeUserLoop env users).1 = false := by
  intro users
  induction users with
  | nil => rfl
  | cons u rest ih =>
    by_cases h : env.revokeOk u
    · rcases hrec : removeUserLoop env rest with ⟨res, invs⟩
      rw [hrec] at ih
      simpa [removeUserLoop, h, hrec] using ih
    · simp [removeUserLoop, h, isRmValidationErr]

theorem package_no_validation_err (env : Env) (usernames : List String)
    (addPfx force : Bool) (pkg : PackagingSpec)
    (hpk : env.packaging = some pkg)
    (hfind : usernames.find?
      (fun u => !knownContains (getUsers env.issued env.privKeys) u) = none) :
    isValidationFailure (package env usernames addPfx force).1 = false := by
  cases htd : env.tempDirOk with
  | false => simp [package, hpk, hfind, htd, isValidationFailure]
  | true =>
  cases hsc : env.skelCopyOk with
  | false => simp [package, hpk, hfind, htd, hsc, isValidationFailure]
  | true =>
  rcases hrun : runSkelScripts env pkg.skelMapScripts with ⟨failed, sevs⟩
  cases failed with
  | some s => simp [package, hpk, hfind, htd, hsc, hrun, isValidationFailure]
  | none =>
  cases hpp : env.pkgParentOk with
  | false => simp [package, hpk, hfind, htd, hsc, hrun, hpp, isValidationFailure]
  | true =>
  rcases hloop : packageUsers env addPfx force usernames [] env.out0 with
    ⟨res, outF, uevs⟩
  have hval := validation_false_of_preLoop_false
    (packageUsers_spec env addPfx force usernames [] env.out0).2.2.2
  rw [hloop] at hval
  simpa [package, hpk, hfind, htd, hsc, hrun, hpp, hloop] using hval

/-- C8 (counterexample): duplicates in the requested list are NOT detected
as a validation error.  Packaging `["alice", "alice"]` passes validation,
creates the workspace, runs the transform script and fully packages the
first occurrence — `alice.zip` is delivered — and only then does the
second occurrence fail, when its skeleton copy meets the already-populated
`pkgs/alice` directory.  Nothing resembles the claimed up-front rejection
with no external invocation and no archive written. -/
theorem write_ops_duplicate_cex :
    isValidationFailure (package demoEnv ["alice", "alice"] false true).1 = false
    ∧ (package demoEnv ["alice", "alice"] false true).1
        = .error (.pkgDirTaken "alice")
    ∧ archivesOf (package demoEnv ["alice", "alice"] false true).2.2
        = ["alice.zip"]
    ∧ (package demoEnv ["alice", "alice"] false true).2.2
        = [.tempDirCreated, .skelCopied, .scriptRun "patch-skel",
            .pkgParentCreated, .userDirCopied "alice", .subdirsCreated "alice",
            .certCopied "alice", .keyCopied "alice", .fileCreated "alice.zip",
            .archiveWritten "alice.zip"] :=
  ⟨rfl, rfl, rfl, rfl⟩

/-- C8 (amended): the write-side operations validate each requested name
ONLY by its membership in the known-user set (absence for issuance,
presence for removal and packaging); a request list whose every element
passes that membership test is never rejected as a validation error, even
when it contains duplicates — execution proceeds past validation, and a
duplicate is only ever stopped later, in mid-execution (for packaging,
when the repeated name's per-user directory turns out to be already
populated, after the first occurrence's archive was delivered). -/
theorem write_ops_dup_not_rejected (envN envR envP : Env)
    (usernames : List String) (updateCrl addPfx force : Bool)
    (pkg : PackagingSpec)
    (h1 : usernames.all
      (fun u => !knownContains (getUsers envN.issued envN.privKeys) u) = true)
    (h2 : usernames.all
      (fun u => knownContains (getUsers envR.issued envR.privKeys) u) = true)
    (h3 : usernames.all
      (fun u => knownContains (getUsers envP.issued envP.privKeys) u) = true)
    (h4 : envP.packaging = some pkg) :
    isNewValidationErr (newUser envN usernames).1 = false
    ∧ isRmValidationErr (removeUser envR usernames updateCrl).1 = false
    ∧ isValidationFailure (package envP usernames addPfx force).1 = false := by
  rw [List.all_eq_true] at h1 h2 h3
  refine ⟨?_, ?_, ?_⟩
  · have hfind : usernames.find?
        (fun u => knownContains (getUsers envN.issued envN.privKeys) u) = none := by
      rw [List.find?_eq_none]
      intro x hx
      have := h1 x hx
      simp only [Bool.not_eq_true'] at this
      simp [this]
    rw [newUser, hfind]
    exact newUserLoop_no_validation_err envN usernames
  · have hfind : usernames.find?
        (fun u => !knownContains (getUsers envR.issued envR.privKeys) u) = none := by
      rw [List.find?_eq_none]
      intro x hx
      simp [h2 x hx]
    rw [removeUser]
    rw [hfind]
    have hloop := removeUserLoop_no_validation_err envR usernames
    rcases hrec : removeUserLoop envR usernames with ⟨res, invs⟩
    rw [hrec] at hloop
    cases res with
    | error e => simpa using hloop
    | ok uu =>
      cases uu
      by_cases hcrl : updateCrl && !envR.crlOk
      · simp [hcrl, isRmValidationErr]
      · simp [hcrl, isRmValidationErr]
  · have hfind : usernames.find?
        (fun u => !knownContains (getUsers envP.issued envP.privKeys) u) = none := by
      rw [List.find?_eq_none]
      intro x hx
      simp [h3 x hx]
    exact package_no_validation_err envP usernames addPfx force pkg h4 hfind

/-- A world in which `"dave"` is a known user. -/
def demoEnvDave : Env :=
  { demoEnv with issued := ["dave"], privKeys := ["dave", "ca"] }

/-- Witness for `write_ops_dup_not_rejected` at the duplicated request
list `["dave", "dave"]`: issuance validates against `demoEnv` (where
`dave` is unknown), removal and packaging against `demoEnvDave` (where
`dave` is known); none of the three operations reports a validation
error. -/
theorem write_ops_dup_not_rejected_witness :
    (["dave", "dave"].all
      (fun u => !knownContains (getUsers demoEnv.issued demoEnv.privKeys) u) = true)
    ∧ (["dave", "dave"].all
      (fun u => knownContains (getUsers demoEnvDave.issued demoEnvDave.privKeys) u) = true)
    ∧ isNewValidationErr (newUser demoEnv ["dave", "dave"]).1 = false
    ∧ isRmValidationErr (removeUser demoEnvDave ["dave", "dave"] true).1 = false
    ∧ isValidationFailure (package demoEnvDave ["dave", "dave"] false true).1
        = false := by
  have h := write_ops_dup_not_rejected demoEnv demoEnvDave demoEnvDave
    ["dave", "dave"] true false true
    { skelMapScripts := ["patch-skel"]
      certSubpath := "creds/client.crt"
      keySubpath := "creds/client.key" }
    rfl rfl rfl rfl
  exact ⟨rfl, rfl, h.1, h.2.1, h.2.2⟩

/-! ## Custom scripts (src/types.rs) and the dispatch of main (src/main.rs)

`CustomScriptsMap` is a `BTreeMap<ScriptableActionKind, Vec<String>>`,
modelled as an association list with unique keys; script success is an
oracle `runOk`.  The second result component lists the scripts that were
actually executed, in order. -/

/-- The closed enumeration of scriptable action kinds. -/
inductive ScriptableActionKind
  | userList
  | userInfo
  | userNew
  | userRm
  | userPkg
deriving DecidableEq

/-- `BTreeMap::get` on the script map. -/
def lookupScripts (m : List (ScriptableActionKind × List String))
    (k : ScriptableActionKind) : Option (List String) :=
  match m with
  | [] => none
  | (k', ss) :: rest => if k = k' then some ss else lookupScripts rest k

/-- Run scripts strictly in order; the first failing script (which did
execute) aborts the remainder and is reported. -/
def runScriptSeq (runOk : String → Bool) :
    List String → Except String Unit × List String
  | [] => (.ok (), [])
  | s :: rest =>
    if runOk s then
      match runScriptSeq runOk rest with
      | (res, ran) => (res, s :: ran)
    else (.error s, [s])

/-- `CustomScriptsMap::run_for`: a kind absent from the map, or mapped to
an empty script list, is a silent no-op; otherwise the configured scripts
run strictly in order and the first failure aborts the remainder and is
surfaced. -/
def runFor (m : List (ScriptableActionKind × List String))
    (runOk : String → Bool) (kind : ScriptableActionKind) :
    Except String Unit × List String :=
  match lookupScripts m kind with
  | none => (.ok (), [])
  | some scripts =>
    if scripts.isEmpty then (.ok (), [])
    else runScriptSeq runOk scripts

theorem runScriptSeq_all_ok (runOk : String → Bool) :
    ∀ (ss : List String), ss.all runOk = true →
      runScriptSeq runOk ss = (.ok (), ss) := by
  intro ss
  induction ss with
  | nil => intro _; rfl
  | cons s rest ih =>
    intro h
    rw [List.all_cons, Bool.and_eq_true] at h
    simp [runScriptSeq, h.1, ih h.2]

theorem runScriptSeq_first_fail (runOk : String → Bool) :
    ∀ (ss : List String) (s : String),
      ss.find? (fun x => !runOk x) = some s →
      runScriptSeq runOk ss = (.error s, ss.takeWhile runOk ++ [s]) := by
  intro ss
  induction ss with
  | nil => intro s h; exact absurd h (by simp)
  | cons x rest ih =>
    intro s h
    by_cases hx : runOk x
    · rw [List.find?_cons_of_neg _ (by simp [hx])] at h
      rw [runScriptSeq, if_pos hx, ih s h]
      simp [List.takeWhile_cons, hx]
    · rw [List.find?_cons_of_pos _ (by simp [hx])] at h
      injection h with h
      subst h
      rw [runScriptSeq, if_neg hx]
      simp [List.takeWhile_cons, hx]

/-- C9: `run_for` is a silent no-op (success, nothing executed) when the
kind is absent from the map or its script list is empty; when every
configured script succeeds they all run, strictly in order; and when some
script fails, the first failing one executes, aborts the remainder and is
surfaced to the caller — the executed scripts are exactly the successful
prefix plus the failing script, with no retries. -/
theorem runFor_spec (m : List (ScriptableActionKind × List String))
    (runOk : String → Bool) (kind : ScriptableActionKind) (s : String) :
    ((lookupScripts m kind).getD [] = [] → runFor m runOk kind = (.ok (), []))
    ∧ (((lookupScripts m kind).getD []).all runOk = true →
        runFor m runOk kind = (.ok (), (lookupScripts m kind).getD []))
    ∧ (((lookupScripts m kind).getD []).find? (fun x => !runOk x) = some s →
        runFor m runOk kind
          = (.error s, ((lookupScripts m kind).getD []).takeWhile runOk ++ [s])) := by
  cases hl : lookupScripts m kind with
  | none =>
    refine ⟨fun _ => by simp [runFor, hl], fun _ => by simp [runFor, hl], ?_⟩
    intro habs
    simp at habs
  | some scripts =>
    simp only [Option.getD_some]
    cases hempty : scripts with
    | nil =>
      subst hempty
      exact ⟨fun _ => by simp [runFor, hl], fun _ => by simp [runFor, hl],
        fun habs => absurd habs (by simp)⟩
    | cons a rest =>
      subst hempty
      refine ⟨fun habs => absurd habs (by simp), ?_, ?_⟩
      · intro hall
        simp only [runFor, hl]
        rw [if_neg (by simp)]
        exact runScriptSeq_all_ok runOk _ hall
      · intro hfind
        simp only [runFor, hl]
        rw [if_neg (by simp)]
        exact runScriptSeq_first_fail runOk _ s hfind

/-- Witness for `runFor_spec`: a map where the `user-list` kind carries
three scripts of which the second fails — the first two execute in order,
the third never runs, the failure is surfaced. -/
theorem runFor_spec_witness :
    ((lookupScripts [(ScriptableActionKind.userList, ["ok-a", "boom", "ok-b"])]
        ScriptableActionKind.userList).getD []).find?
      (fun x => !(x != "boom")) = some "boom"
    ∧ runFor [(ScriptableActionKind.userList, ["ok-a", "boom", "ok-b"])]
        (fun x => x != "boom") ScriptableActionKind.userList
      = (.error "boom", ["ok-a", "boom"]) := by
  refine ⟨rfl, ?_⟩
  exact (runFor_spec [(ScriptableActionKind.userList, ["ok-a", "boom", "ok-b"])]
    (fun x => x != "boom") ScriptableActionKind.userList "boom").2.2 rfl

/-- `run_post_action_scripts` (src/main.rs): a non-scriptable action or an
absent `post_action_scripts` section is a silent no-op; otherwise defer to
`CustomScriptsMap::run_for`. -/
def runPostActionScripts (scriptable : Bool)
    (postMap : Option (List (ScriptableActionKind × List String)))
    (runOk : String → Bool) (kind : ScriptableActionKind) :
    Except String Unit × List String :=
  if !scriptable then (.ok (), [])
  else
    match postMap with
    | none => (.ok (), [])
    | some m => runFor m runOk kind

/-- The tail of `main` (src/main.rs): the selected action runs first and
its error propagates via `?`; only when it returned `Ok` (and the
`--no-post-action-scripts` flag is unset) are the post-action scripts run.
`actionResult` is the outcome of the executed action arm; the second
component lists the post-action scripts that were executed. -/
def mainDispatch (actionResult : Except String Unit)
    (noPostActionScripts scriptable : Bool)
    (postMap : Option (List (ScriptableActionKind × List String)))
    (runOk : String → Bool) (kind : ScriptableActionKind) :
    Except String Unit × List String :=
  match actionResult with
  | .error e => (.error e, [])
  | .ok _ =>
    if noPostActionScripts then (.ok (), [])
    else runPostActionScripts scriptable postMap runOk kind

/-- C10: post-action scripts run only after a successful action: if the
action arm returns an error, `main` propagates exactly that error and the
Post-Action Script Runner never executes anything; conversely, if any
post-action script was executed, the action had returned `Ok`. -/
theorem post_scripts_only_after_success (actionResult : Except String Unit)
    (noPostActionScripts scriptable : Bool)
    (postMap : Option (List (ScriptableActionKind × List String)))
    (runOk : String → Bool) (kind : ScriptableActionKind) (e : String) :
    (actionResult = .error e →
      mainDispatch actionResult noPostActionScripts scriptable postMap runOk kind
        = (.error e, []))
    ∧ ((mainDispatch actionResult noPostActionScripts scriptable postMap
          runOk kind).2 ≠ [] →
        actionResult = .ok ()) := by
  constructor
  · intro h
    subst h
    rfl
  · intro h
    cases actionResult with
    | error e2 => exact absurd rfl h
    | ok uu => cases uu; rfl

/-- Witness for `post_scripts_only_after_success`: a failing action
propagates its error and runs no post-action script, even though the map
carries scripts for the kind. -/
theorem post_scripts_only_after_success_witness :
    mainDispatch (.error "revocation failed") false true
      (some [(ScriptableActionKind.userRm, ["notify-admins"])])
      (fun _ => true) ScriptableActionKind.userRm
    = (.error "revocation failed", []) :=
  (post_scripts_only_after_success (.error "revocation failed") false true
    (some [(ScriptableActionKind.userRm, ["notify-admins"])])
    (fun _ => true) ScriptableActionKind.userRm "revocation failed").1 rfl

end OCM
